import Mathlib

/-!
Verification of the token-list calculator (Go transliteration of
xharaken's `calculator_modularize_2.py`, the richer version with
parentheses and unary minus).

Modelling conventions, chosen once for the whole development:

* `float64` values are modelled by `EF`: an exact rational (`ℚ`) together
  with the IEEE-754 special values `+∞`, `-∞` and NaN.  IEEE rounding and
  negative zero are not modelled, so all finite arithmetic is exact.
  Every concrete value appearing in the verified examples is exactly
  representable in `float64`, where the model and the program agree;
  floating-point accuracy properties over unbounded inputs are outside
  the scope of this embedding and are not claimed.
* The mutable doubly-linked token chain is modelled as a `List token`.
  Each destructive pass of the source becomes a function from the token
  list (always headed by the sentinel `Plus` token) to a new token list.
* `log.Panicf` (and nil-pointer dereferences that abort the Go process)
  are modelled by `Except CalcError`: a panic is an `.error` result that
  propagates through the rest of `Calculate`.
* Input is a `List Char`; the character index reported for invalid
  characters counts characters (bytes and characters coincide on the
  ASCII alphabet the calculator accepts).
* `tokenize` consumes at least one character per emitted step, so the
  recursion is driven by a `Nat` fuel initialised to the input length;
  the `.outOfFuel` branch is unreachable for the actual entry point
  (every lemma below carries the sufficient-fuel hypothesis explicitly).
-/

namespace MoruxCalc

deriving instance DecidableEq for Except

/-- Model of a Go `float64`: an exact rational plus IEEE special values.
`fin q` stands for a finite double of exact value `q`; rounding is not
modelled. -/
inductive EF where
  | fin : ℚ → EF
  | pinf : EF
  | ninf : EF
  | nan : EF
deriving DecidableEq

/-- IEEE-754 addition on the model (no `-0`, exact finite arithmetic). -/
def EF.add : EF → EF → EF
  | .nan, _ => .nan
  | _, .nan => .nan
  | .fin a, .fin b => .fin (a + b)
  | .pinf, .ninf => .nan
  | .ninf, .pinf => .nan
  | .pinf, _ => .pinf
  | _, .pinf => .pinf
  | .ninf, _ => .ninf
  | _, .ninf => .ninf

/-- IEEE-754 subtraction on the model. -/
def EF.sub : EF → EF → EF
  | .nan, _ => .nan
  | _, .nan => .nan
  | .fin a, .fin b => .fin (a - b)
  | .pinf, .pinf => .nan
  | .ninf, .ninf => .nan
  | .pinf, _ => .pinf
  | _, .pinf => .ninf
  | .ninf, _ => .ninf
  | _, .ninf => .pinf

/-- IEEE-754 multiplication on the model. -/
def EF.mul : EF → EF → EF
  | .nan, _ => .nan
  | _, .nan => .nan
  | .fin a, .fin b => .fin (a * b)
  | .fin a, .pinf => if a = 0 then .nan else if 0 < a then .pinf else .ninf
  | .pinf, .fin b => if b = 0 then .nan else if 0 < b then .pinf else .ninf
  | .fin a, .ninf => if a = 0 then .nan else if 0 < a then .ninf else .pinf
  | .ninf, .fin b => if b = 0 then .nan else if 0 < b then .ninf else .pinf
  | .pinf, .pinf => .pinf
  | .ninf, .ninf => .pinf
  | .pinf, .ninf => .ninf
  | .ninf, .pinf => .ninf

/-- IEEE-754 division on the model: a finite value divided by zero yields
`+∞`, `-∞` or NaN — exactly the behaviour of Go's `/` on `float64`
(`0/0 = NaN`, `x/0 = ±∞`); there is no error case. -/
def EF.div : EF → EF → EF
  | .nan, _ => .nan
  | _, .nan => .nan
  | .fin a, .fin b =>
      if b = 0 then (if a = 0 then .nan else if 0 < a then .pinf else .ninf)
      else .fin (a / b)
  | .fin _, .pinf => .fin 0
  | .fin _, .ninf => .fin 0
  | .pinf, .fin b => if 0 ≤ b then .pinf else .ninf
  | .ninf, .fin b => if 0 ≤ b then .ninf else .pinf
  | .pinf, .pinf => .nan
  | .pinf, .ninf => .nan
  | .ninf, .pinf => .nan
  | .ninf, .ninf => .nan

/-- The ways the Go program aborts (or would abort) an evaluation.
`invalidCharacter`/`invalidSyntax` model the two `log.Panicf` calls;
`unbalancedGroup`/`nilDereference` model nil-pointer dereferences that
crash the Go process; `corruptSplice` marks the one situation
(`replaceMulDiv` with a `Multiply`/`Divide` token directly after the
sentinel) where the source silently corrupts its chain instead of
crashing — the model refuses to assign a value there, and no claim
exercises it; `outOfFuel` is an artefact of the fuelled recursion and is
unreachable from the entry point. -/
inductive CalcError where
  | invalidCharacter : Char → Nat → CalcError
  | invalidSyntax : CalcError
  | unbalancedGroup : CalcError
  | nilDereference : CalcError
  | corruptSplice : CalcError
  | outOfFuel : CalcError
deriving DecidableEq

/-- Token kinds, mirroring the Go `tokenKind` enumeration. -/
inductive tokenKind where
  | Number
  | Plus
  | Minus
  | Multiple
  | Divide
  | Start
  | End
deriving DecidableEq

/-- A token: a kind plus a numeric value (meaningful only for `Number`,
zero for the others), mirroring the Go `token` struct minus the
`prev`/`next` links (the list order carries those). -/
structure token where
  kind : tokenKind
  number : EF
deriving DecidableEq

/-- The synthetic leading `Plus` token every sequence starts with. -/
def sentinelTok : token := ⟨.Plus, .fin 0⟩

/-- Numeric value of a digit character, as in Go's `line[index]-'0'`. -/
def digitQ (c : Char) : ℚ := ((c.toNat - '0'.toNat : ℕ) : ℚ)

/-- The loop of Go's `readNumber`: consume digits and decimal points,
accumulating `number` (×10 per digit), the seen-a-dot flag, and the
place-value multiplier `keta` (×0.1 per digit after a dot).  Note that a
`'.'` only sets the flag: it never terminates the literal, no matter how
many dots appear. -/
def readNumberGo : List Char → ℚ → Bool → ℚ → ℚ × ℚ × List Char
  | [], number, _, keta => (number, keta, [])
  | c :: rest, number, flag, keta =>
    if c = '.' then readNumberGo rest number true keta
    else if c.isDigit then
      readNumberGo rest (number * 10 + digitQ c) flag
        (if flag then keta * (1 / 10) else keta)
    else (number, keta, c :: rest)

/-- Go's `readNumber`: parse a number literal starting at the head of
the list, returning the `Number` token (value `number * keta`) and the
unconsumed remainder of the input. -/
def readNumber (l : List Char) : token × List Char :=
  match readNumberGo l 0 false 1 with
  | (number, keta, rest) => (⟨.Number, .fin (number * keta)⟩, rest)

/-- Go's `readPlus` (the `line` argument is unused there too). -/
def readPlus (index : Nat) : token × Nat := (⟨.Plus, .fin 0⟩, index + 1)

/-- Go's `readMinus`. -/
def readMinus (index : Nat) : token × Nat := (⟨.Minus, .fin 0⟩, index + 1)

/-- Go's `readMultiple`. -/
def readMultiple (index : Nat) : token × Nat := (⟨.Multiple, .fin 0⟩, index + 1)

/-- Go's `readDivide`. -/
def readDivide (index : Nat) : token × Nat := (⟨.Divide, .fin 0⟩, index + 1)

/-- Go's `readStart`. -/
def readStart (index : Nat) : token × Nat := (⟨.Start, .fin 0⟩, index + 1)

/-- Go's `readEnd`. -/
def readEnd (index : Nat) : token × Nat := (⟨.End, .fin 0⟩, index + 1)

/-- The loop of Go's `tokenize`.  `prevKind` is the kind of the last
emitted token (initially the sentinel `Plus`), `flag` is the
pending-negation flag, `index` the current character index.  A `'-'`
whose previous emitted token is not a `Number` emits nothing and sets
`flag`; a parsed number literal is negated (multiplied by `-1`) and the
flag cleared when `flag` is set.  Any character outside
`[0-9.+-*/()]`-in-position aborts with `invalidCharacter` (a bare `'.'`
not opened by a digit also lands in this default branch, as in Go).
The `Nat` fuel decreases by one per emitted step; each step consumes at
least one character, so fuel = input length suffices. -/
def tokenizeGo : Nat → List Char → tokenKind → Bool → Nat → Except CalcError (List token)
  | _, [], _, _, _ => .ok []
  | 0, _ :: _, _, _, _ => .error .outOfFuel
  | fuel + 1, c :: rest, prevKind, flag, index =>
    if c.isDigit then
      match readNumber (c :: rest) with
      | (tok, rest2) =>
        let tok2 := if flag then { tok with number := EF.mul tok.number (.fin (-1)) } else tok
        match tokenizeGo fuel rest2 tok2.kind false (index + ((c :: rest).length - rest2.length)) with
        | .error e => .error e
        | .ok ts => .ok (tok2 :: ts)
    else if c = '+' then
      match readPlus index with
      | (tok, index2) =>
        match tokenizeGo fuel rest tok.kind flag index2 with
        | .error e => .error e
        | .ok ts => .ok (tok :: ts)
    else if c = '-' then
      if prevKind ≠ .Number then
        tokenizeGo fuel rest prevKind true (index + 1)
      else
        match readMinus index with
        | (tok, index2) =>
          match tokenizeGo fuel rest tok.kind flag index2 with
          | .error e => .error e
          | .ok ts => .ok (tok :: ts)
    else if c = '*' then
      match readMultiple index with
      | (tok, index2) =>
        match tokenizeGo fuel rest tok.kind flag index2 with
        | .error e => .error e
        | .ok ts => .ok (tok :: ts)
    else if c = '/' then
      match readDivide index with
      | (tok, index2) =>
        match tokenizeGo fuel rest tok.kind flag index2 with
        | .error e => .error e
        | .ok ts => .ok (tok :: ts)
    else if c = '(' then
      match readStart index with
      | (tok, index2) =>
        match tokenizeGo fuel rest tok.kind flag index2 with
        | .error e => .error e
        | .ok ts => .ok (tok :: ts)
    else if c = ')' then
      match readEnd index with
      | (tok, index2) =>
        match tokenizeGo fuel rest tok.kind flag index2 with
        | .error e => .error e
        | .ok ts => .ok (tok :: ts)
    else
      .error (.invalidCharacter c index)

/-- Go's `tokenize`: sentinel `Plus` followed by the lexed tokens. -/
def tokenize (line : String) : Except CalcError (List token) :=
  match tokenizeGo line.toList.length line.toList .Plus false 0 with
  | .error e => .error e
  | .ok ts => .ok (sentinelTok :: ts)

/-- Go's `calcMultiple`: the spliced-in token for `prev * next`. -/
def calcMultiple (prev next : token) : token :=
  ⟨.Number, EF.mul prev.number next.number⟩

/-- Go's `calcDivide`: the spliced-in token for `prev / next` — plain
floating-point division, with no zero-divisor guard. -/
def calcDivide (prev next : token) : token :=
  ⟨.Number, EF.div prev.number next.number⟩

/-- The walk of Go's `evaluateMulDiv`, carrying the token preceding the
cursor (`prev`) and whether `prev` is still the head of the chain
(`atHead`).  On a `Multiply`/`Divide` token the three-token span
`prev, op, next` is replaced by the computed `Number` and the walk
resumes after `next`.  When the operator sits directly after the chain
head, Go's `replaceMulDiv` skips the forward relink
(`p.prev.prev == nil`) and silently corrupts the chain; the model
reports `corruptSplice` there instead of assigning a value.  An operator
with no following token dereferences nil in Go (`nilDereference`). -/
def evaluateMulDivGo (atHead : Bool) (prev : token) : List token → Except CalcError (List token)
  | [] => .ok [prev]
  | t :: ts =>
    match t.kind with
    | .Multiple =>
      if atHead then .error .corruptSplice
      else
        match ts with
        | [] => .error .nilDereference
        | b :: bs => evaluateMulDivGo false (calcMultiple prev b) bs
    | .Divide =>
      if atHead then .error .corruptSplice
      else
        match ts with
        | [] => .error .nilDereference
        | b :: bs => evaluateMulDivGo false (calcDivide prev b) bs
    | _ =>
      match evaluateMulDivGo false t ts with
      | .error e => .error e
      | .ok ts2 => .ok (prev :: ts2)

/-- Go's `evaluateMulDiv` on the whole (sentinel-headed) token list. -/
def evaluateMulDiv : List token → Except CalcError (List token)
  | [] => .ok []
  | h :: ts => evaluateMulDivGo true h ts

/-- The loop of Go's `evaluatePlusMinus`, carrying the kind of the
preceding token and the accumulator.  A `Number` token adds or subtracts
its value according to the preceding `Plus`/`Minus`; any other preceding
kind is the `invalid syntax for token` panic.  Non-`Number` tokens are
passed over. -/
def evaluatePlusMinusGo (prevKind : tokenKind) (answer : EF) : List token → Except CalcError EF
  | [] => .ok answer
  | t :: ts =>
    match t.kind with
    | .Number =>
      match prevKind with
      | .Plus => evaluatePlusMinusGo .Number (EF.add answer t.number) ts
      | .Minus => evaluatePlusMinusGo .Number (EF.sub answer t.number) ts
      | _ => .error .invalidSyntax
    | k => evaluatePlusMinusGo k answer ts

/-- Go's `evaluatePlusMinus`, started at the head of the chain (whose
`prev` pointer is nil: a `Number` head would dereference nil, but the
head is always the sentinel `Plus` in every actual call). -/
def evaluatePlusMinus : List token → Except CalcError EF
  | [] => .error .nilDereference
  | t :: ts =>
    match t.kind with
    | .Number => .error .nilDereference
    | k => evaluatePlusMinusGo k (.fin 0) ts

/-- Split a token list at the first `End` token: returns the tokens
strictly before it and the tokens strictly after it.  This is the
forward scan `for p.next.kind != End` of Go's `evaluateStartEnd`; `none`
(no `End` at all) is the nil-pointer walk of that scan. -/
def splitAtFirstEnd : List token → Option (List token × List token)
  | [] => none
  | t :: ts =>
    if t.kind = .End then some ([], ts)
    else
      match splitAtFirstEnd ts with
      | some (mid, rest) => some (t :: mid, rest)
      | none => none

/-- The tail-to-head traversal of Go's `evaluateStartEnd`.  `revLeft` is
the not-yet-visited part of the chain, reversed (head of `revLeft` = the
cursor, scanning towards the chain head); `right` is the already-visited
part in chain order.  On a `Start` the nearest following `End` is found
in `right`, the tokens between them are evaluated as a detached
sub-chain (dummy `Plus` sentinel, then `evaluateMulDiv` and
`evaluatePlusMinus`, exactly `calcStartEnd`), and the whole
`Start ... End` span is replaced by one `Number` token; the traversal
resumes from the token preceding the removed `Start`.  For an empty
group `()` the source's span pointers cross and its behaviour is tangled
pointer corruption; the model collapses such a group to `Number 0`
(the value of an empty sub-chain) — no claim exercises this case. -/
def evaluateStartEndGo : List token → List token → Except CalcError (List token)
  | [], right => .ok right
  | t :: ts, right =>
    match t.kind with
    | .Start =>
      match splitAtFirstEnd right with
      | none => .error .unbalancedGroup
      | some (mid, rest) =>
        match evaluateMulDiv (sentinelTok :: mid) with
        | .error e => .error e
        | .ok inner =>
          match evaluatePlusMinus inner with
          | .error e => .error e
          | .ok v => evaluateStartEndGo ts (⟨.Number, v⟩ :: rest)
    | _ => evaluateStartEndGo ts (t :: right)

/-- Go's `evaluateStartEnd`: start the backward traversal at the tail of
the chain. -/
def evaluateStartEnd (l : List token) : Except CalcError (List token) :=
  evaluateStartEndGo l.reverse []

/-- Go's `Calculate`: tokenize, collapse parenthesis groups, collapse
multiplicative operators, then sum the rest.  Panics at any stage abort
the whole evaluation (`Except` propagation). -/
def Calculate (line : String) : Except CalcError EF :=
  match tokenize line with
  | .error e => .error e
  | .ok ts =>
    match evaluateStartEnd ts with
    | .error e => .error e
    | .ok ts2 =>
      match evaluateMulDiv ts2 with
      | .error e => .error e
      | .ok ts3 => evaluatePlusMinus ts3

/-- Is this kind one of the four binary operator kinds? -/
def tokenKind.isBinOp : tokenKind → Bool
  | .Plus => true
  | .Minus => true
  | .Multiple => true
  | .Divide => true
  | _ => false

/-- Is this kind an additive operator kind? -/
def tokenKind.isAddOp : tokenKind → Bool
  | .Plus => true
  | .Minus => true
  | _ => false

/-- Number of tokens of a given kind in a list. -/
def countKind (k : tokenKind) : List token → Nat
  | [] => 0
  | t :: ts => (if t.kind = k then 1 else 0) + countKind k ts

/-- Shape `(op Number)*`: the tail of a parenthesis-free well-formed
token sequence after its leading `Number`. -/
inductive FlatTail : List token → Prop where
  | nil : FlatTail []
  | cons : ∀ {k : tokenKind} {w v : EF} {r : List token},
      k.isBinOp = true → FlatTail r → FlatTail (⟨k, w⟩ :: ⟨.Number, v⟩ :: r)

/-- Shape `Number (op Number)*`: a parenthesis-free well-formed token
sequence (the input shape of the Multiplicative Reducer, sentinel
excluded). -/
def FlatL (l : List token) : Prop :=
  ∃ v r, l = ⟨.Number, v⟩ :: r ∧ FlatTail r

/-- Shape `((Plus|Minus) Number)*`. -/
inductive FlatAddTail : List token → Prop where
  | nil : FlatAddTail []
  | cons : ∀ {k : tokenKind} {w v : EF} {r : List token},
      k.isAddOp = true → FlatAddTail r → FlatAddTail (⟨k, w⟩ :: ⟨.Number, v⟩ :: r)

/-- Shape `Number ((Plus|Minus) Number)*`: the strictly alternating
input shape of the Additive Evaluator (sentinel excluded). -/
def FlatAddL (l : List token) : Prop :=
  ∃ v r, l = ⟨.Number, v⟩ :: r ∧ FlatAddTail r

/-- Well-formed token sequences, as produced by the tokenizer for a
well-formed input expression.  `Gram true l`: `l` derives
`expr := atom (op atom)*`; `Gram false l`: `l` derives
`atom := Number | Start expr End`. -/
inductive Gram : Bool → List token → Prop where
  | num : ∀ {v : EF}, Gram false [⟨.Number, v⟩]
  | group : ∀ {e : List token} {w w2 : EF},
      Gram true e → Gram false (⟨.Start, w⟩ :: e ++ [⟨.End, w2⟩])
  | atom : ∀ {a : List token}, Gram false a → Gram true a
  | cons : ∀ {a : List token} {k : tokenKind} {w : EF} {e : List token},
      Gram false a → k.isBinOp = true → Gram true e → Gram true (a ++ ⟨k, w⟩ :: e)

/-- The calculator's input alphabet: `[0-9.+-*/()]`. -/
def validChar (c : Char) : Bool :=
  c.isDigit || c = '.' || c = '+' || c = '-' || c = '*' || c = '/' || c = '(' || c = ')'

/-- Base-10 accumulation of a digit string, exactly as `readNumber`
accumulates its `number` variable. -/
def digitsAcc (n : ℚ) : List Char → ℚ
  | [] => n
  | c :: rest => digitsAcc (n * 10 + digitQ c) rest

/-- Mathematical value of a digit string read in base 10. -/
def digitsQ (l : List Char) : ℚ := digitsAcc 0 l

/-- The characters of a numeric literal: integer digits, optionally a
dot followed by fractional digits. -/
def litChars (ip fp : List Char) (dot : Bool) : List Char :=
  ip ++ (if dot then '.' :: fp else [])

/-- Mathematical value of a numeric literal with integer digits `ip`
and fractional digits `fp`. -/
def litQ (ip fp : List Char) : ℚ :=
  digitsQ ip + digitsQ fp / 10 ^ fp.length

/-- Well-formedness of a literal: nonempty all-digit integer part,
all-digit fractional part, and no fractional part without a dot. -/
def LitOK (ip fp : List Char) (dot : Bool) : Prop :=
  ip ≠ [] ∧ (∀ c ∈ ip, c.isDigit = true) ∧ (∀ c ∈ fp, c.isDigit = true) ∧
    (dot = false → fp = [])

/-- A character list that cannot extend a number literal: empty, or
headed by a character that is neither a digit nor a dot. -/
def numBoundary : List Char → Prop
  | [] => True
  | c :: _ => c.isDigit = false ∧ c ≠ '.'

instance decLitOK (ip fp : List Char) (dot : Bool) : Decidable (LitOK ip fp dot) := by
  unfold LitOK
  infer_instance

instance decNumBoundary : (l : List Char) → Decidable (numBoundary l)
  | [] => .isTrue trivial
  | c :: _ => inferInstanceAs (Decidable (c.isDigit = false ∧ c ≠ '.'))

/-- The input character of each binary operator kind. -/
def opChar : tokenKind → Char
  | .Plus => '+'
  | .Minus => '-'
  | .Multiple => '*'
  | .Divide => '/'
  | _ => ' '

/-- The mathematical binary operation of each operator kind. -/
def binOpQ : tokenKind → ℚ → ℚ → ℚ
  | .Plus => fun a b => a + b
  | .Minus => fun a b => a - b
  | .Multiple => fun a b => a * b
  | .Divide => fun a b => a / b
  | _ => fun _ _ => 0

theorem countKind_append (k : tokenKind) (a b : List token) :
    countKind k (a ++ b) = countKind k a + countKind k b := by
  induction a with
  | nil => simp [countKind]
  | cons t ts ih => simp [countKind, ih]; ring

theorem countKind_reverse (k : tokenKind) (l : List token) :
    countKind k l.reverse = countKind k l := by
  induction l with
  | nil => rfl
  | cons t ts ih => simp [countKind, countKind_append, ih]; ring

theorem isBinOp_cases {k : tokenKind} (h : k.isBinOp = true) :
    k = .Plus ∨ k = .Minus ∨ k = .Multiple ∨ k = .Divide := by
  cases k <;> simp_all [tokenKind.isBinOp]

theorem isAddOp_cases {k : tokenKind} (h : k.isAddOp = true) :
    k = .Plus ∨ k = .Minus := by
  cases k <;> simp_all [tokenKind.isAddOp]

theorem flatTail_kinds {r : List token} (h : FlatTail r) :
    ∀ t ∈ r, t.kind = .Number ∨ t.kind.isBinOp = true := by
  induction h with
  | nil => intro t ht; cases ht
  | cons hk _ ih =>
    intro t ht
    rcases ht with _ | ⟨_, ht⟩
    · exact Or.inr hk
    · rcases ht with _ | ⟨_, ht⟩
      · exact Or.inl rfl
      · exact ih t ht

theorem flatL_kinds {l : List token} (h : FlatL l) :
    ∀ t ∈ l, t.kind = .Number ∨ t.kind.isBinOp = true := by
  obtain ⟨v, r, rfl, hr⟩ := h
  intro t ht
  rcases ht with _ | ⟨_, ht⟩
  · exact Or.inl rfl
  · exact flatTail_kinds hr t ht

theorem flatAddTail_kinds {r : List token} (h : FlatAddTail r) :
    ∀ t ∈ r, t.kind = .Number ∨ t.kind.isAddOp = true := by
  induction h with
  | nil => intro t ht; cases ht
  | cons hk _ ih =>
    intro t ht
    rcases ht with _ | ⟨_, ht⟩
    · exact Or.inr hk
    · rcases ht with _ | ⟨_, ht⟩
      · exact Or.inl rfl
      · exact ih t ht

theorem flatAddL_kinds {l : List token} (h : FlatAddL l) :
    ∀ t ∈ l, t.kind = .Number ∨ t.kind.isAddOp = true := by
  obtain ⟨v, r, rfl, hr⟩ := h
  intro t ht
  rcases ht with _ | ⟨_, ht⟩
  · exact Or.inl rfl
  · exact flatAddTail_kinds hr t ht

theorem countKind_eq_zero {k : tokenKind} {l : List token}
    (h : ∀ t ∈ l, t.kind ≠ k) : countKind k l = 0 := by
  induction l with
  | nil => rfl
  | cons t ts ih =>
    simp only [countKind]
    rw [if_neg (h t (List.mem_cons_self t ts)), ih fun t ht => h t (List.mem_cons_of_mem _ ht)]

theorem flatL_count_start {l : List token} (h : FlatL l) : countKind .Start l = 0 := by
  refine countKind_eq_zero fun t ht => ?_
  rcases flatL_kinds h t ht with h1 | h1
  · rw [h1]; intro hc; cases hc
  · rcases isBinOp_cases h1 with h2 | h2 | h2 | h2 <;> rw [h2] <;> intro hc <;> cases hc

theorem flatL_count_end {l : List token} (h : FlatL l) : countKind .End l = 0 := by
  refine countKind_eq_zero fun t ht => ?_
  rcases flatL_kinds h t ht with h1 | h1
  · rw [h1]; intro hc; cases hc
  · rcases isBinOp_cases h1 with h2 | h2 | h2 | h2 <;> rw [h2] <;> intro hc <;> cases hc

theorem evaluateMulDivGo_flatTail {r : List token} (h : FlatTail r) :
    ∀ v : EF, ∃ g, evaluateMulDivGo false ⟨.Number, v⟩ r = .ok g ∧ FlatAddL g := by
  induction h with
  | nil => exact fun v => ⟨[⟨.Number, v⟩], rfl, ⟨v, [], rfl, FlatAddTail.nil⟩⟩
  | @cons k w u r hk _ ih =>
    intro v
    rcases isBinOp_cases hk with rfl | rfl | rfl | rfl
    · obtain ⟨g, hg, u2, r2, rfl, hr2⟩ := ih u
      exact ⟨⟨.Number, v⟩ :: ⟨.Plus, w⟩ :: ⟨.Number, u2⟩ :: r2,
        by simp [evaluateMulDivGo, hg],
        ⟨v, ⟨.Plus, w⟩ :: ⟨.Number, u2⟩ :: r2, rfl, FlatAddTail.cons rfl hr2⟩⟩
    · obtain ⟨g, hg, u2, r2, rfl, hr2⟩ := ih u
      exact ⟨⟨.Number, v⟩ :: ⟨.Minus, w⟩ :: ⟨.Number, u2⟩ :: r2,
        by simp [evaluateMulDivGo, hg],
        ⟨v, ⟨.Minus, w⟩ :: ⟨.Number, u2⟩ :: r2, rfl, FlatAddTail.cons rfl hr2⟩⟩
    · obtain ⟨g, hg, hfa⟩ := ih (EF.mul v u)
      exact ⟨g, by simp [evaluateMulDivGo, calcMultiple, hg], hfa⟩
    · obtain ⟨g, hg, hfa⟩ := ih (EF.div v u)
      exact ⟨g, by simp [evaluateMulDivGo, calcDivide, hg], hfa⟩

theorem evaluateMulDiv_flat {f : List token} (h : FlatL f) :
    ∃ g, evaluateMulDiv (sentinelTok :: f) = .ok (sentinelTok :: g) ∧ FlatAddL g := by
  obtain ⟨v, r, rfl, hr⟩ := h
  obtain ⟨g, hg, hfa⟩ := evaluateMulDivGo_flatTail hr v
  exact ⟨g, by simp [evaluateMulDiv, evaluateMulDivGo, sentinelTok, hg], hfa⟩

theorem evaluatePlusMinusGo_flatAddTail {r : List token} (h : FlatAddTail r) :
    ∀ acc : EF, ∃ v, evaluatePlusMinusGo .Number acc r = .ok v := by
  induction h with
  | nil => exact fun acc => ⟨acc, rfl⟩
  | @cons k w u r hk _ ih =>
    intro acc
    rcases isAddOp_cases hk with rfl | rfl
    · obtain ⟨v, hv⟩ := ih (EF.add acc u)
      exact ⟨v, by simp [evaluatePlusMinusGo, hv]⟩
    · obtain ⟨v, hv⟩ := ih (EF.sub acc u)
      exact ⟨v, by simp [evaluatePlusMinusGo, hv]⟩

theorem evaluatePlusMinus_flatAdd {g : List token} (h : FlatAddL g) :
    ∃ v, evaluatePlusMinus (sentinelTok :: g) = .ok v := by
  obtain ⟨u, r, rfl, hr⟩ := h
  obtain ⟨v, hv⟩ := evaluatePlusMinusGo_flatAddTail hr (EF.add (.fin 0) u)
  exact ⟨v, by simp [evaluatePlusMinus, evaluatePlusMinusGo, sentinelTok, hv]⟩

theorem splitAtFirstEnd_append {mid : List token} (rest : List token) (w : EF)
    (h : countKind .End mid = 0) :
    splitAtFirstEnd (mid ++ ⟨.End, w⟩ :: rest) = some (mid, rest) := by
  induction mid with
  | nil => simp [splitAtFirstEnd]
  | cons t ts ih =>
    simp only [countKind] at h
    by_cases hc : t.kind = .End
    · rw [if_pos hc] at h; omega
    · rw [if_neg hc, Nat.zero_add] at h
      simp [splitAtFirstEnd, hc, ih h]

theorem evaluateStartEndGo_skip {a : List token} (h : countKind .Start a = 0) :
    ∀ rl right, evaluateStartEndGo (a ++ rl) right = evaluateStartEndGo rl (a.reverse ++ right) := by
  induction a with
  | nil => intro rl right; simp
  | cons t ts ih =>
    intro rl right
    simp only [countKind] at h
    by_cases hc : t.kind = .Start
    · rw [if_pos hc] at h; omega
    · rw [if_neg hc, Nat.zero_add] at h
      have step : evaluateStartEndGo (t :: (ts ++ rl)) right = evaluateStartEndGo (ts ++ rl) (t :: right) := by
        cases hk : t.kind <;> simp [evaluateStartEndGo, hk]
        exact absurd hk hc
      rw [List.cons_append, step, ih h]
      simp

theorem gram_noStart {b : Bool} {l : List token} (h : Gram b l) :
    countKind .Start l = 0 → FlatL l ∧ (b = false → ∃ v : EF, l = [⟨.Number, v⟩]) := by
  induction h with
  | @num v =>
    exact fun _ => ⟨⟨v, [], rfl, FlatTail.nil⟩, fun _ => ⟨v, rfl⟩⟩
  | @group e w w2 he ih =>
    intro h0
    simp [countKind] at h0
  | @atom a ha ih =>
    intro h0
    exact ⟨(ih h0).1, by simp⟩
  | @cons a k w e ha hk he iha ihe =>
    intro h0
    rw [countKind_append] at h0
    simp only [countKind] at h0
    obtain ⟨v, rfl⟩ := (iha (by omega)).2 rfl
    obtain ⟨u, r, rfl, hr⟩ := (ihe (by omega)).1
    refine ⟨⟨v, ⟨k, w⟩ :: ⟨.Number, u⟩ :: r, by simp, FlatTail.cons hk hr⟩, by simp⟩

theorem gram_decomp {b : Bool} {l : List token} (h : Gram b l) :
    0 < countKind .Start l →
    ∃ pre mid rest : List token, ∃ ws we : EF,
      l = pre ++ ⟨.Start, ws⟩ :: (mid ++ ⟨.End, we⟩ :: rest) ∧
      FlatL mid ∧ countKind .Start rest = 0 ∧
      ∀ v : EF, Gram b (pre ++ ⟨.Number, v⟩ :: rest) := by
  induction h with
  | @num v =>
    intro h0
    simp [countKind] at h0
  | @group e w w2 he ih =>
    intro _
    by_cases h1 : 0 < countKind .Start e
    · obtain ⟨pre, mid, rest, ws, we, heq, hmid, hrest, hrep⟩ := ih h1
      refine ⟨⟨.Start, w⟩ :: pre, mid, rest ++ [⟨.End, w2⟩], ws, we, ?_, hmid, ?_, ?_⟩
      · rw [heq]; simp
      · rw [countKind_append, hrest]; simp [countKind]
      · intro v
        have h2 : Gram true (pre ++ ⟨.Number, v⟩ :: rest) := hrep v
        have h3 := @Gram.group (pre ++ ⟨.Number, v⟩ :: rest) w w2 h2
        simpa using h3
    · have h2 : countKind .Start e = 0 := by omega
      obtain ⟨hflat, -⟩ := gram_noStart he h2
      exact ⟨[], e, [], w, w2, by simp, hflat, rfl, fun v => Gram.num⟩
  | @atom a ha ih =>
    intro h0
    obtain ⟨pre, mid, rest, ws, we, heq, hmid, hrest, hrep⟩ := ih h0
    exact ⟨pre, mid, rest, ws, we, heq, hmid, hrest, fun v => Gram.atom (hrep v)⟩
  | @cons a k w e ha hk he iha ihe =>
    intro h0
    rw [countKind_append] at h0
    simp only [countKind] at h0
    have hkS : k ≠ tokenKind.Start := by
      rcases isBinOp_cases hk with rfl | rfl | rfl | rfl <;> intro hc <;> cases hc
    rw [if_neg hkS] at h0
    by_cases h1 : 0 < countKind .Start e
    · obtain ⟨pre, mid, rest, ws, we, heq, hmid, hrest, hrep⟩ := ihe h1
      refine ⟨a ++ ⟨k, w⟩ :: pre, mid, rest, ws, we, ?_, hmid, hrest, ?_⟩
      · rw [heq]; simp
      · intro v
        have h2 := Gram.cons (w := w) ha hk (hrep v)
        simpa using h2
    · have h2 : 0 < countKind .Start a := by omega
      obtain ⟨pre, mid, rest, ws, we, heq, hmid, hrest, hrep⟩ := iha h2
      refine ⟨pre, mid, rest ++ ⟨k, w⟩ :: e, ws, we, ?_, hmid, ?_, ?_⟩
      · rw [heq]; simp
      · rw [countKind_append]
        simp only [countKind]
        rw [if_neg hkS, hrest]
        omega
      · intro v
        have h2 := Gram.cons (w := w) (hrep v) hk he
        simpa using h2

theorem evaluateStartEnd_noStart {l : List token} (h : countKind .Start l = 0) :
    evaluateStartEnd (sentinelTok :: l) = .ok (sentinelTok :: l) := by
  have h2 : countKind .Start l.reverse = 0 := by rw [countKind_reverse]; exact h
  have h3 := evaluateStartEndGo_skip h2 [sentinelTok] []
  rw [evaluateStartEnd]
  simp only [List.reverse_cons]
  rw [h3]
  simp [evaluateStartEndGo, sentinelTok]

theorem parenElimAux : ∀ (n : ℕ) {e : List token}, Gram true e → countKind .Start e ≤ n →
    ∃ f, FlatL f ∧ evaluateStartEnd (sentinelTok :: e) = .ok (sentinelTok :: f) := by
  intro n
  induction n with
  | zero =>
    intro e he h0
    have h1 : countKind .Start e = 0 := by omega
    exact ⟨e, (gram_noStart he h1).1, evaluateStartEnd_noStart h1⟩
  | succ n ih =>
    intro e he h0
    by_cases h1 : countKind .Start e = 0
    · exact ⟨e, (gram_noStart he h1).1, evaluateStartEnd_noStart h1⟩
    · obtain ⟨pre, mid, rest, ws, we, heq, hmid, hrest, hrep⟩ := gram_decomp he (by omega)
      subst heq
      obtain ⟨g, hg, hfa⟩ := evaluateMulDiv_flat hmid
      obtain ⟨v, hv⟩ := evaluatePlusMinus_flatAdd hfa
      have hmidS : countKind .Start mid = 0 := flatL_count_start hmid
      have hmidE : countKind .End mid = 0 := flatL_count_end hmid
      have hcount : countKind .Start (pre ++ ⟨.Start, ws⟩ :: (mid ++ ⟨.End, we⟩ :: rest))
          = countKind .Start pre + 1 := by
        rw [countKind_append]
        simp only [countKind]
        rw [countKind_append]
        simp only [countKind]
        rw [hmidS, hrest]
        simp
      have hpre : countKind .Start pre ≤ n := by
        rw [hcount] at h0
        omega
      -- the scan reaches the last `Start` with `mid ++ End :: rest` to its right
      have hA : countKind .Start (rest.reverse ++ ⟨.End, we⟩ :: mid.reverse) = 0 := by
        rw [countKind_append, countKind_reverse]
        simp only [countKind]
        rw [countKind_reverse, hmidS, hrest]
        rfl
      have step1 : evaluateStartEnd (sentinelTok :: (pre ++ ⟨.Start, ws⟩ :: (mid ++ ⟨.End, we⟩ :: rest)))
          = evaluateStartEndGo (⟨.Start, ws⟩ :: (pre.reverse ++ [sentinelTok])) (mid ++ ⟨.End, we⟩ :: rest) := by
        rw [evaluateStartEnd]
        have hshape : (sentinelTok :: (pre ++ ⟨.Start, ws⟩ :: (mid ++ ⟨.End, we⟩ :: rest))).reverse
            = (rest.reverse ++ ⟨.End, we⟩ :: mid.reverse) ++ (⟨.Start, ws⟩ :: (pre.reverse ++ [sentinelTok])) := by
          simp
        rw [hshape, evaluateStartEndGo_skip hA]
        have : (rest.reverse ++ ⟨.End, we⟩ :: mid.reverse).reverse ++ ([] : List token)
            = mid ++ ⟨.End, we⟩ :: rest := by simp
        rw [this]
      have step2 : evaluateStartEndGo (⟨.Start, ws⟩ :: (pre.reverse ++ [sentinelTok])) (mid ++ ⟨.End, we⟩ :: rest)
          = evaluateStartEndGo (pre.reverse ++ [sentinelTok]) (⟨.Number, v⟩ :: rest) := by
        simp [evaluateStartEndGo, splitAtFirstEnd_append rest we hmidE, hg, hv]
      have step3 : evaluateStartEnd (sentinelTok :: (pre ++ ⟨.Number, v⟩ :: rest))
          = evaluateStartEndGo (pre.reverse ++ [sentinelTok]) (⟨.Number, v⟩ :: rest) := by
        rw [evaluateStartEnd]
        have hB : countKind .Start (rest.reverse ++ [(⟨.Number, v⟩ : token)]) = 0 := by
          rw [countKind_append, countKind_reverse, hrest]
          rfl
        have hshape : (sentinelTok :: (pre ++ ⟨.Number, v⟩ :: rest)).reverse
            = (rest.reverse ++ [(⟨.Number, v⟩ : token)]) ++ (pre.reverse ++ [sentinelTok]) := by
          simp
        rw [hshape, evaluateStartEndGo_skip hB]
        simp
      have hcount2 : countKind .Start (pre ++ ⟨.Number, v⟩ :: rest) = countKind .Start pre := by
        rw [countKind_append]
        simp only [countKind]
        rw [hrest]
        simp
      obtain ⟨f, hf, hcalc⟩ := ih (hrep v) (by rw [hcount2]; exact hpre)
      refine ⟨f, hf, ?_⟩
      rw [step1, step2, ← step3, hcalc]

theorem parenElim {e : List token} (he : Gram true e) :
    ∃ f, FlatL f ∧ evaluateStartEnd (sentinelTok :: e) = .ok (sentinelTok :: f) :=
  parenElimAux (countKind .Start e) he (Nat.le_refl _)

theorem isDigit_ne_dot {c : Char} (h : c.isDigit = true) : c ≠ '.' := by
  intro hc
  subst hc
  exact absurd h (by decide)

theorem readNumberGo_digits {l : List Char} (hl : ∀ c ∈ l, c.isDigit = true) :
    ∀ (rest : List Char) (n : ℚ) (f : Bool) (k : ℚ),
      readNumberGo (l ++ rest) n f k
        = readNumberGo rest (digitsAcc n l) f (k * (if f then (1 / 10) ^ l.length else 1)) := by
  induction l with
  | nil =>
    intro rest n f k
    cases f <;> simp [digitsAcc]
  | cons c l ih =>
    intro rest n f k
    have hc : c.isDigit = true := hl c (List.mem_cons_self c l)
    have hnd : ¬ c = '.' := isDigit_ne_dot hc
    simp only [List.cons_append, readNumberGo]
    rw [if_neg hnd, if_pos hc]
    simp only [List.append_eq]
    rw [ih (fun c h => hl c (List.mem_cons_of_mem _ h))]
    cases f
    · simp [digitsAcc]
    · simp [digitsAcc]
      rw [pow_succ]
      ring

theorem readNumberGo_boundary {rest : List Char} (h : numBoundary rest) :
    ∀ (n : ℚ) (f : Bool) (k : ℚ), readNumberGo rest n f k = (n, k, rest) := by
  cases rest with
  | nil => intro n f k; rfl
  | cons c r =>
    intro n f k
    obtain ⟨h1, h2⟩ := h
    simp [readNumberGo, h1, h2]

theorem digitsAcc_shift (l : List Char) : ∀ n : ℚ, digitsAcc n l = n * 10 ^ l.length + digitsQ l := by
  induction l with
  | nil => intro n; simp [digitsAcc, digitsQ]
  | cons c l ih =>
    intro n
    show digitsAcc (n * 10 + digitQ c) l = _
    rw [ih]
    have h2 : digitsQ (c :: l) = digitQ c * 10 ^ l.length + digitsQ l := by
      show digitsAcc (0 * 10 + digitQ c) l = _
      rw [ih]
      ring
    rw [h2]
    simp only [List.length_cons, pow_succ]
    ring

theorem readNumber_lit {ip fp : List Char} {dot : Bool} {rest : List Char}
    (hok : LitOK ip fp dot) (hb : numBoundary rest) :
    readNumber (litChars ip fp dot ++ rest) = (⟨.Number, .fin (litQ ip fp)⟩, rest) := by
  obtain ⟨hne, hip, hfp, hdot⟩ := hok
  cases dot with
  | false =>
    have hfp0 : fp = [] := hdot rfl
    subst hfp0
    rw [readNumber]
    have h1 : litChars ip [] false = ip := by simp [litChars]
    rw [h1, readNumberGo_digits hip, readNumberGo_boundary hb]
    show ((⟨.Number, .fin (digitsAcc 0 ip * (1 * if false = true then (1 / 10 : ℚ) ^ ip.length else 1))⟩ : token), rest)
        = ((⟨.Number, .fin (litQ ip [])⟩ : token), rest)
    have hval : digitsAcc 0 ip * (1 * if false = true then (1 / 10 : ℚ) ^ ip.length else 1)
        = litQ ip [] := by
      simp [litQ, digitsQ, digitsAcc]
    rw [hval]
  | true =>
    rw [readNumber]
    have h1 : litChars ip fp true ++ rest = ip ++ ('.' :: (fp ++ rest)) := by
      simp [litChars]
    rw [h1, readNumberGo_digits hip]
    have h2 : readNumberGo ('.' :: (fp ++ rest)) (digitsAcc 0 ip) false
        (1 * if false then (1 / 10 : ℚ) ^ ip.length else 1) =
        readNumberGo (fp ++ rest) (digitsAcc 0 ip) true 1 := by
      simp [readNumberGo]
    rw [h2, readNumberGo_digits hfp, readNumberGo_boundary hb]
    show ((⟨.Number, .fin (digitsAcc (digitsAcc 0 ip) fp * (1 * if true = true then (1 / 10 : ℚ) ^ fp.length else 1))⟩ : token), rest)
        = ((⟨.Number, .fin (litQ ip fp)⟩ : token), rest)
    have h10 : (10 : ℚ) ^ fp.length ≠ 0 := pow_ne_zero _ (by norm_num)
    have hval : digitsAcc (digitsAcc 0 ip) fp * (1 * if true = true then (1 / 10 : ℚ) ^ fp.length else 1)
        = litQ ip fp := by
      rw [digitsAcc_shift fp (digitsAcc 0 ip), if_pos rfl]
      simp only [litQ, digitsQ]
      rw [div_pow, one_pow]
      field_simp
      try ring
    rw [hval]

theorem tokenizeGo_plus (fuel : ℕ) (rest : List Char) (pk : tokenKind) (flag : Bool) (i : ℕ) :
    tokenizeGo (fuel + 1) ('+' :: rest) pk flag i
      = match tokenizeGo fuel rest .Plus flag (i + 1) with
        | .error e => .error e
        | .ok ts => .ok (⟨.Plus, .fin 0⟩ :: ts) := by
  simp [tokenizeGo, readPlus]

theorem tokenizeGo_minus_binary (fuel : ℕ) (rest : List Char) (flag : Bool) (i : ℕ) :
    tokenizeGo (fuel + 1) ('-' :: rest) .Number flag i
      = match tokenizeGo fuel rest .Minus flag (i + 1) with
        | .error e => .error e
        | .ok ts => .ok (⟨.Minus, .fin 0⟩ :: ts) := by
  simp [tokenizeGo, readMinus]

theorem tokenizeGo_minus_unary (fuel : ℕ) (rest : List Char) {pk : tokenKind}
    (hpk : pk ≠ .Number) (flag : Bool) (i : ℕ) :
    tokenizeGo (fuel + 1) ('-' :: rest) pk flag i = tokenizeGo fuel rest pk true (i + 1) := by
  simp [tokenizeGo, hpk]

theorem tokenizeGo_star (fuel : ℕ) (rest : List Char) (pk : tokenKind) (flag : Bool) (i : ℕ) :
    tokenizeGo (fuel + 1) ('*' :: rest) pk flag i
      = match tokenizeGo fuel rest .Multiple flag (i + 1) with
        | .error e => .error e
        | .ok ts => .ok (⟨.Multiple, .fin 0⟩ :: ts) := by
  simp [tokenizeGo, readMultiple]

theorem tokenizeGo_slash (fuel : ℕ) (rest : List Char) (pk : tokenKind) (flag : Bool) (i : ℕ) :
    tokenizeGo (fuel + 1) ('/' :: rest) pk flag i
      = match tokenizeGo fuel rest .Divide flag (i + 1) with
        | .error e => .error e
        | .ok ts => .ok (⟨.Divide, .fin 0⟩ :: ts) := by
  simp [tokenizeGo, readDivide]

theorem tokenizeGo_lit {ip fp : List Char} {dot : Bool} {rest : List Char}
    (hok : LitOK ip fp dot) (hb : numBoundary rest) (fuel : ℕ) (pk : tokenKind) (flag : Bool) (i : ℕ) :
    tokenizeGo (fuel + 1) (litChars ip fp dot ++ rest) pk flag i
      = match tokenizeGo fuel rest .Number false (i + (litChars ip fp dot).length) with
        | .error e => .error e
        | .ok ts => .ok (⟨.Number, .fin (if flag then litQ ip fp * (-1) else litQ ip fp)⟩ :: ts) := by
  have hrn : readNumber (litChars ip fp dot ++ rest) = (⟨.Number, .fin (litQ ip fp)⟩, rest) :=
    readNumber_lit hok hb
  obtain ⟨hne, hip, hfp, hdot⟩ := hok
  obtain ⟨c, ip2, rfl⟩ : ∃ c ip2, ip = c :: ip2 := by
    cases ip with
    | nil => exact absurd rfl hne
    | cons c ip2 => exact ⟨c, ip2, rfl⟩
  have hc : c.isDigit = true := hip c (List.mem_cons_self _ _)
  have hlit : litChars (c :: ip2) fp dot ++ rest = c :: (ip2 ++ (if dot then '.' :: fp else []) ++ rest) := by
    simp [litChars]
  have hlen : (c :: (ip2 ++ (if dot then '.' :: fp else []) ++ rest)).length - rest.length
      = (litChars (c :: ip2) fp dot).length := by
    simp [litChars]
    omega
  rw [hlit] at hrn ⊢
  simp only [tokenizeGo]
  rw [if_pos hc, hrn, hlen]
  cases flag <;> simp [EF.mul]

theorem tokenizeGo_lparen (fuel : ℕ) (rest : List Char) (pk : tokenKind) (flag : Bool) (i : ℕ) :
    tokenizeGo (fuel + 1) ('(' :: rest) pk flag i
      = match tokenizeGo fuel rest .Start flag (i + 1) with
        | .error e => .error e
        | .ok ts => .ok (⟨.Start, .fin 0⟩ :: ts) := by
  simp [tokenizeGo, readStart]

theorem tokenizeGo_rparen (fuel : ℕ) (rest : List Char) (pk : tokenKind) (flag : Bool) (i : ℕ) :
    tokenizeGo (fuel + 1) (')' :: rest) pk flag i
      = match tokenizeGo fuel rest .End flag (i + 1) with
        | .error e => .error e
        | .ok ts => .ok (⟨.End, .fin 0⟩ :: ts) := by
  simp [tokenizeGo, readEnd]

theorem readNumberGo_suffix : ∀ (l : List Char) (n : ℚ) (f : Bool) (k : ℚ),
    ∃ pre, l = pre ++ (readNumberGo l n f k).2.2 ∧ ∀ c ∈ pre, c.isDigit = true ∨ c = '.' := by
  intro l
  induction l with
  | nil => intro n f k; exact ⟨[], rfl, by simp⟩
  | cons c rest ih =>
    intro n f k
    by_cases h1 : c = '.'
    · subst h1
      obtain ⟨pre, heq, hpre⟩ := ih n true k
      have hstep : readNumberGo ('.' :: rest) n f k = readNumberGo rest n true k := by
        simp [readNumberGo]
      refine ⟨'.' :: pre, ?_, ?_⟩
      · rw [hstep, List.cons_append, ← heq]
      · intro d hd
        cases hd with
        | head => exact Or.inr rfl
        | tail _ hd => exact hpre d hd
    · by_cases h2 : c.isDigit = true
      · obtain ⟨pre, heq, hpre⟩ := ih (n * 10 + digitQ c) f (if f then k * (1 / 10) else k)
        have hstep : readNumberGo (c :: rest) n f k
            = readNumberGo rest (n * 10 + digitQ c) f (if f then k * (1 / 10) else k) := by
          simp only [readNumberGo]
          rw [if_neg h1, if_pos h2]
        refine ⟨c :: pre, ?_, ?_⟩
        · rw [hstep, List.cons_append, ← heq]
        · intro d hd
          cases hd with
          | head => exact Or.inl h2
          | tail _ hd => exact hpre d hd
      · have hstep : readNumberGo (c :: rest) n f k = (n, k, c :: rest) := by
          simp only [readNumberGo]
          rw [if_neg h1, if_neg h2]
        refine ⟨[], ?_, by simp⟩
        rw [hstep]
        rfl

theorem readNumber_split {c : Char} (hc : c.isDigit = true) (rest : List Char) :
    ∃ pre, c :: rest = pre ++ (readNumber (c :: rest)).2 ∧
      (∀ d ∈ pre, d.isDigit = true ∨ d = '.') ∧
      (readNumber (c :: rest)).2.length ≤ rest.length := by
  have hstep : readNumberGo (c :: rest) 0 false 1
      = readNumberGo rest (0 * 10 + digitQ c) false 1 := by
    simp [readNumberGo, isDigit_ne_dot hc, hc]
  have hproj : (readNumber (c :: rest)).2 = (readNumberGo rest (0 * 10 + digitQ c) false 1).2.2 := by
    rw [readNumber, hstep]
  obtain ⟨pre, heq, hpre⟩ := readNumberGo_suffix rest (0 * 10 + digitQ c) false 1
  refine ⟨c :: pre, ?_, ?_, ?_⟩
  · rw [hproj, List.cons_append, ← heq]
  · intro d hd
    cases hd with
    | head => exact Or.inl hc
    | tail _ hd => exact hpre d hd
  · rw [hproj]
    have := congrArg List.length heq
    rw [List.length_append] at this
    omega

theorem validChar_of_digit_or_dot {c : Char} (h : c.isDigit = true ∨ c = '.') :
    validChar c = true := by
  rcases h with h | rfl
  · simp [validChar, h]
  · decide

theorem tokenizeGo_invalid : ∀ (fuel : ℕ) (l : List Char) (pk : tokenKind) (flag : Bool) (i : ℕ),
    l.length ≤ fuel → (∃ c ∈ l, validChar c = false) →
    ∃ c2 i2, tokenizeGo fuel l pk flag i = .error (.invalidCharacter c2 i2) := by
  intro fuel
  induction fuel with
  | zero =>
    intro l pk flag i hlen hbad
    obtain ⟨c, hc, -⟩ := hbad
    have hnil : l = [] := List.eq_nil_of_length_eq_zero (Nat.le_zero.mp hlen)
    subst hnil
    cases hc
  | succ fuel ih =>
    intro l pk flag i hlen hbad
    cases l with
    | nil =>
      obtain ⟨c, hc, -⟩ := hbad
      cases hc
    | cons c rest =>
      obtain ⟨c0, hc0mem, hc0⟩ := hbad
      simp only [List.length_cons, Nat.add_le_add_iff_right] at hlen
      by_cases hd : c.isDigit = true
      · obtain ⟨pre, heq, hpre, hlen2⟩ := readNumber_split hd rest
        rcases hrw : readNumber (c :: rest) with ⟨tok, rest2⟩
        simp only [hrw] at heq hlen2
        have hc0in : c0 ∈ rest2 := by
          rw [heq] at hc0mem
          rcases List.mem_append.mp hc0mem with h | h
          · exact absurd (validChar_of_digit_or_dot (hpre c0 h)) (by rw [hc0]; exact Bool.false_ne_true)
          · exact h
        obtain ⟨c2, i2, herr⟩ := ih rest2
          (if flag then { tok with number := EF.mul tok.number (.fin (-1)) } else tok).kind false
          (i + ((c :: rest).length - rest2.length)) (by omega) ⟨c0, hc0in, hc0⟩
        refine ⟨c2, i2, ?_⟩
        simp only [tokenizeGo]
        rw [if_pos hd, hrw]
        simp only []
        rw [herr]
      · by_cases hp : c = '+'
        · subst hp
          have hc0in : c0 ∈ rest := by
            cases hc0mem with
            | head => exact absurd hc0 (by decide)
            | tail _ h => exact h
          obtain ⟨c2, i2, herr⟩ := ih rest .Plus flag (i + 1) hlen ⟨c0, hc0in, hc0⟩
          exact ⟨c2, i2, by rw [tokenizeGo_plus, herr]⟩
        · by_cases hm : c = '-'
          · subst hm
            have hc0in : c0 ∈ rest := by
              cases hc0mem with
              | head => exact absurd hc0 (by decide)
              | tail _ h => exact h
            by_cases hpk : pk = .Number
            · subst hpk
              obtain ⟨c2, i2, herr⟩ := ih rest .Minus flag (i + 1) hlen ⟨c0, hc0in, hc0⟩
              exact ⟨c2, i2, by rw [tokenizeGo_minus_binary, herr]⟩
            · obtain ⟨c2, i2, herr⟩ := ih rest pk true (i + 1) hlen ⟨c0, hc0in, hc0⟩
              exact ⟨c2, i2, by rw [tokenizeGo_minus_unary fuel rest hpk, herr]⟩
          · by_cases hs : c = '*'
            · subst hs
              have hc0in : c0 ∈ rest := by
                cases hc0mem with
                | head => exact absurd hc0 (by decide)
                | tail _ h => exact h
              obtain ⟨c2, i2, herr⟩ := ih rest .Multiple flag (i + 1) hlen ⟨c0, hc0in, hc0⟩
              exact ⟨c2, i2, by rw [tokenizeGo_star, herr]⟩
            · by_cases hsl : c = '/'
              · subst hsl
                have hc0in : c0 ∈ rest := by
                  cases hc0mem with
                  | head => exact absurd hc0 (by decide)
                  | tail _ h => exact h
                obtain ⟨c2, i2, herr⟩ := ih rest .Divide flag (i + 1) hlen ⟨c0, hc0in, hc0⟩
                exact ⟨c2, i2, by rw [tokenizeGo_slash, herr]⟩
              · by_cases hlp : c = '('
                · subst hlp
                  have hc0in : c0 ∈ rest := by
                    cases hc0mem with
                    | head => exact absurd hc0 (by decide)
                    | tail _ h => exact h
                  obtain ⟨c2, i2, herr⟩ := ih rest .Start flag (i + 1) hlen ⟨c0, hc0in, hc0⟩
                  exact ⟨c2, i2, by rw [tokenizeGo_lparen, herr]⟩
                · by_cases hrp : c = ')'
                  · subst hrp
                    have hc0in : c0 ∈ rest := by
                      cases hc0mem with
                      | head => exact absurd hc0 (by decide)
                      | tail _ h => exact h
                    obtain ⟨c2, i2, herr⟩ := ih rest .End flag (i + 1) hlen ⟨c0, hc0in, hc0⟩
                    exact ⟨c2, i2, by rw [tokenizeGo_rparen, herr]⟩
                  · refine ⟨c, i, ?_⟩
                    simp only [tokenizeGo]
                    rw [if_neg hd, if_neg hp, if_neg hm, if_neg hs, if_neg hsl, if_neg hlp, if_neg hrp]

theorem tokenizeGo_nil (fuel : ℕ) (pk : tokenKind) (flag : Bool) (i : ℕ) :
    tokenizeGo fuel [] pk flag i = .ok [] := by
  cases fuel <;> rfl

theorem litChars_length_pos {ip fp : List Char} {dot : Bool} (hok : LitOK ip fp dot) :
    ∃ m, (litChars ip fp dot).length = m + 1 := by
  obtain ⟨hne, -, -, -⟩ := hok
  have h1 : 0 < ip.length := List.length_pos.mpr hne
  have h2 : ip.length ≤ (litChars ip fp dot).length := by
    simp [litChars]
  exact ⟨(litChars ip fp dot).length - 1, by omega⟩

theorem opChar_boundary {k : tokenKind} (hk : k.isBinOp = true) (l : List Char) :
    numBoundary (opChar k :: l) := by
  rcases isBinOp_cases hk with rfl | rfl | rfl | rfl <;> exact ⟨by decide, by decide⟩

theorem tokenize_two_lit {aip afp bip bfp : List Char} {adot bdot : Bool} {k : tokenKind}
    {s : String}
    (hA : LitOK aip afp adot) (hB : LitOK bip bfp bdot) (hk : k.isBinOp = true)
    (hs : s.toList = litChars aip afp adot ++ opChar k :: litChars bip bfp bdot) :
    tokenize s = .ok [sentinelTok, ⟨.Number, .fin (litQ aip afp)⟩, ⟨k, .fin 0⟩,
      ⟨.Number, .fin (litQ bip bfp)⟩] := by
  obtain ⟨la, hla⟩ := litChars_length_pos hA
  obtain ⟨lb, hlb⟩ := litChars_length_pos hB
  have hb1 : numBoundary (opChar k :: litChars bip bfp bdot) := opChar_boundary hk _
  have hfuel : (litChars aip afp adot ++ opChar k :: litChars bip bfp bdot).length
      = (la + lb + 2) + 1 := by
    rw [List.length_append, hla]
    simp only [List.length_cons]
    rw [hlb]
    omega
  have h4 : la + lb + 2 = (la + lb + 1) + 1 := by omega
  have hblit : tokenizeGo ((la + lb) + 1)
      (litChars bip bfp bdot ++ ([] : List Char)) k false ((0 + (litChars aip afp adot).length) + 1)
      = .ok [⟨.Number, .fin (litQ bip bfp)⟩] := by
    rw [tokenizeGo_lit hB (by trivial) (la + lb) k false _]
    rw [tokenizeGo_nil]
    simp
  rw [List.append_nil] at hblit
  rw [tokenize, hs, hfuel]
  rw [tokenizeGo_lit hA hb1 (la + lb + 2) .Plus false 0]
  rw [h4]
  rcases isBinOp_cases hk with rfl | rfl | rfl | rfl
  · rw [show opChar .Plus = '+' from rfl, tokenizeGo_plus, hblit]
    simp
  · rw [show opChar .Minus = '-' from rfl, tokenizeGo_minus_binary, hblit]
    simp
  · rw [show opChar .Multiple = '*' from rfl, tokenizeGo_star, hblit]
    simp
  · rw [show opChar .Divide = '/' from rfl, tokenizeGo_slash, hblit]
    simp

theorem Calculate_eq {s : String} {ts ts2 ts3 : List token} {v : EF}
    (h1 : tokenize s = .ok ts) (h2 : evaluateStartEnd ts = .ok ts2)
    (h3 : evaluateMulDiv ts2 = .ok ts3) (h4 : evaluatePlusMinus ts3 = .ok v) :
    Calculate s = .ok v := by
  simp only [Calculate, h1, h2, h3, h4]

theorem Calculate_tokenize_err {s : String} {e : CalcError} (h : tokenize s = .error e) :
    Calculate s = .error e := by
  simp only [Calculate, h]

theorem digitQ_nonneg (c : Char) : 0 ≤ digitQ c := by
  simp [digitQ]

theorem digitsAcc_nonneg {n : ℚ} (hn : 0 ≤ n) (l : List Char) : 0 ≤ digitsAcc n l := by
  induction l generalizing n with
  | nil => exact hn
  | cons c l ih =>
    exact ih (by nlinarith [digitQ_nonneg c])

theorem litQ_nonneg (ip fp : List Char) : 0 ≤ litQ ip fp := by
  have h1 : 0 ≤ digitsQ ip := digitsAcc_nonneg le_rfl ip
  have h2 : 0 ≤ digitsQ fp := digitsAcc_nonneg le_rfl fp
  have h3 : (0 : ℚ) < 10 ^ fp.length := by positivity
  have h4 : 0 ≤ digitsQ fp / 10 ^ fp.length := div_nonneg h2 h3.le
  simp only [litQ]
  linarith

/-- C2: multiplicative operators bind tighter than additive ones; the
Multiplicative Reducer eliminates every `Multiply`/`Divide` token before
the Additive Evaluator runs, so `Calculate "1+2*3+4/2-5"` returns `4`. -/
theorem claim2_precedence : Calculate "1+2*3+4/2-5" = .ok (.fin 4) := by
  simp [Calculate, tokenize, tokenizeGo, readNumber, readNumberGo, digitQ, sentinelTok,
      readPlus, readMinus, readMultiple, readDivide, readStart, readEnd,
      evaluateStartEnd, evaluateStartEndGo, splitAtFirstEnd,
      evaluateMulDiv, evaluateMulDivGo, calcMultiple, calcDivide,
      evaluatePlusMinus, evaluatePlusMinusGo, EF.add, EF.sub, EF.mul, EF.div] <;> norm_num

/-- C3: chains of same-precedence operators evaluate left to right:
`Calculate "4-3-2"` returns `-1` and `Calculate "4/2/1"` returns `2`. -/
theorem claim3_left_to_right :
    Calculate "4-3-2" = .ok (.fin (-1)) ∧ Calculate "4/2/1" = .ok (.fin 2) := by
  constructor
  · simp [Calculate, tokenize, tokenizeGo, readNumber, readNumberGo, digitQ, sentinelTok,
      readPlus, readMinus, readMultiple, readDivide, readStart, readEnd,
      evaluateStartEnd, evaluateStartEndGo, splitAtFirstEnd,
      evaluateMulDiv, evaluateMulDivGo, calcMultiple, calcDivide,
      evaluatePlusMinus, evaluatePlusMinusGo, EF.add, EF.sub, EF.mul, EF.div] <;> norm_num
  · simp [Calculate, tokenize, tokenizeGo, readNumber, readNumberGo, digitQ, sentinelTok,
      readPlus, readMinus, readMultiple, readDivide, readStart, readEnd,
      evaluateStartEnd, evaluateStartEndGo, splitAtFirstEnd,
      evaluateMulDiv, evaluateMulDivGo, calcMultiple, calcDivide,
      evaluatePlusMinus, evaluatePlusMinusGo, EF.add, EF.sub, EF.mul, EF.div] <;> norm_num

/-- C1: parenthesized groups are collapsed innermost-first into a single
`Number` token, so grouping overrides precedence:
`Calculate "(1+2)*(3+4)" = 21`, `Calculate "((2+3)*4)" = 20`, and for
every well-formed token sequence the Parenthesis Reducer succeeds and
leaves no `Start`/`End` token, at any nesting depth. -/
theorem claim1_grouping :
    Calculate "(1+2)*(3+4)" = .ok (.fin 21) ∧
    Calculate "((2+3)*4)" = .ok (.fin 20) ∧
    ∀ e : List token, Gram true e →
      ∃ f, evaluateStartEnd (sentinelTok :: e) = .ok (sentinelTok :: f) ∧
        ∀ t ∈ f, t.kind ≠ .Start ∧ t.kind ≠ .End := by
  refine ⟨by simp [Calculate, tokenize, tokenizeGo, readNumber, readNumberGo, digitQ, sentinelTok,
      readPlus, readMinus, readMultiple, readDivide, readStart, readEnd,
      evaluateStartEnd, evaluateStartEndGo, splitAtFirstEnd,
      evaluateMulDiv, evaluateMulDivGo, calcMultiple, calcDivide,
      evaluatePlusMinus, evaluatePlusMinusGo, EF.add, EF.sub, EF.mul, EF.div] <;> norm_num, by simp [Calculate, tokenize, tokenizeGo, readNumber, readNumberGo, digitQ, sentinelTok,
      readPlus, readMinus, readMultiple, readDivide, readStart, readEnd,
      evaluateStartEnd, evaluateStartEndGo, splitAtFirstEnd,
      evaluateMulDiv, evaluateMulDivGo, calcMultiple, calcDivide,
      evaluatePlusMinus, evaluatePlusMinusGo, EF.add, EF.sub, EF.mul, EF.div] <;> norm_num, ?_⟩
  intro e he
  obtain ⟨f, hf, hcalc⟩ := parenElim he
  refine ⟨f, hcalc, ?_⟩
  intro t ht
  rcases flatL_kinds hf t ht with h | h
  · rw [h]
    exact ⟨by simp, by simp⟩
  · rcases isBinOp_cases h with h2 | h2 | h2 | h2 <;> rw [h2] <;> exact ⟨by simp, by simp⟩

/-- C1 witness: a doubly nested group `((1))` is well-formed, and the
Parenthesis Reducer eliminates both `Start`/`End` pairs. -/
theorem claim1_grouping_witness :
    Gram true [(⟨.Start, .fin 0⟩ : token), ⟨.Start, .fin 0⟩, ⟨.Number, .fin 1⟩,
      ⟨.End, .fin 0⟩, ⟨.End, .fin 0⟩] ∧
    ∃ f, evaluateStartEnd (sentinelTok :: [(⟨.Start, .fin 0⟩ : token), ⟨.Start, .fin 0⟩,
        ⟨.Number, .fin 1⟩, ⟨.End, .fin 0⟩, ⟨.End, .fin 0⟩]) = .ok (sentinelTok :: f) ∧
      ∀ t ∈ f, t.kind ≠ .Start ∧ t.kind ≠ .End := by
  have hg : Gram true [(⟨.Start, .fin 0⟩ : token), ⟨.Start, .fin 0⟩, ⟨.Number, .fin 1⟩,
      ⟨.End, .fin 0⟩, ⟨.End, .fin 0⟩] :=
    Gram.atom (Gram.group (Gram.atom (Gram.group (Gram.atom Gram.num))))
  exact ⟨hg, claim1_grouping.2.2 _ hg⟩

/-- C7: for every well-formed token sequence, after the Parenthesis
Reducer no `Start`/`End` tokens remain; after the Multiplicative Reducer
no `Multiple`/`Divide` tokens remain; the Additive Evaluator therefore
sees a strictly alternating `(Plus|Minus) Number` sequence after the
leading sentinel `Plus`, and produces a value. -/
theorem claim7_staged_invariant (e : List token) (he : Gram true e) :
    ∃ f g v,
      evaluateStartEnd (sentinelTok :: e) = .ok (sentinelTok :: f) ∧
      (∀ t ∈ sentinelTok :: f, t.kind ≠ .Start ∧ t.kind ≠ .End) ∧
      evaluateMulDiv (sentinelTok :: f) = .ok (sentinelTok :: g) ∧
      (∀ t ∈ sentinelTok :: g, t.kind ≠ .Multiple ∧ t.kind ≠ .Divide) ∧
      FlatAddL g ∧
      evaluatePlusMinus (sentinelTok :: g) = .ok v := by
  obtain ⟨f, hf, h1⟩ := parenElim he
  obtain ⟨g, h2, hg⟩ := evaluateMulDiv_flat hf
  obtain ⟨v, h3⟩ := evaluatePlusMinus_flatAdd hg
  refine ⟨f, g, v, h1, ?_, h2, ?_, hg, h3⟩
  · intro t ht
    cases ht with
    | head => exact ⟨by simp [sentinelTok], by simp [sentinelTok]⟩
    | tail _ ht =>
      rcases flatL_kinds hf t ht with h | h
      · rw [h]
        exact ⟨by simp, by simp⟩
      · rcases isBinOp_cases h with h4 | h4 | h4 | h4 <;> rw [h4] <;> exact ⟨by simp, by simp⟩
  · intro t ht
    cases ht with
    | head => exact ⟨by simp [sentinelTok], by simp [sentinelTok]⟩
    | tail _ ht =>
      rcases flatAddL_kinds hg t ht with h | h
      · rw [h]
        exact ⟨by simp, by simp⟩
      · rcases isAddOp_cases h with h4 | h4 <;> rw [h4] <;> exact ⟨by simp, by simp⟩

/-- C7 witness: the staged invariant holds for the well-formed sequence
`2 * 3`. -/
theorem claim7_staged_invariant_witness :
    Gram true [(⟨.Number, .fin 2⟩ : token), ⟨.Multiple, .fin 0⟩, ⟨.Number, .fin 3⟩] ∧
    ∃ f g v,
      evaluateStartEnd (sentinelTok :: [(⟨.Number, .fin 2⟩ : token), ⟨.Multiple, .fin 0⟩,
        ⟨.Number, .fin 3⟩]) = .ok (sentinelTok :: f) ∧
      (∀ t ∈ sentinelTok :: f, t.kind ≠ .Start ∧ t.kind ≠ .End) ∧
      evaluateMulDiv (sentinelTok :: f) = .ok (sentinelTok :: g) ∧
      (∀ t ∈ sentinelTok :: g, t.kind ≠ .Multiple ∧ t.kind ≠ .Divide) ∧
      FlatAddL g ∧
      evaluatePlusMinus (sentinelTok :: g) = .ok v := by
  have hg : Gram true [(⟨.Number, .fin 2⟩ : token), ⟨.Multiple, .fin 0⟩, ⟨.Number, .fin 3⟩] :=
    Gram.cons (a := [⟨.Number, .fin 2⟩]) Gram.num rfl (Gram.atom Gram.num)
  exact ⟨hg, claim7_staged_invariant _ hg⟩

/-- C4: a `-` whose previously emitted token is a `Number` is lexed as
binary subtraction; otherwise it emits no token and sets the
pending-negation flag, which negates the next parsed number literal;
consequently `Calculate "1+-2" = -1` and `Calculate "1+-2.2" = -1.2`
within the `1e-9` tolerance. -/
theorem claim4_unary_minus :
    (∀ (fuel : ℕ) (rest : List Char) (flag : Bool) (i : ℕ),
      tokenizeGo (fuel + 1) ('-' :: rest) .Number flag i
        = match tokenizeGo fuel rest .Minus flag (i + 1) with
          | .error e => .error e
          | .ok ts => .ok (⟨.Minus, .fin 0⟩ :: ts)) ∧
    (∀ (fuel : ℕ) (rest : List Char) (pk : tokenKind) (flag : Bool) (i : ℕ), pk ≠ .Number →
      tokenizeGo (fuel + 1) ('-' :: rest) pk flag i = tokenizeGo fuel rest pk true (i + 1)) ∧
    (∀ (ip fp : List Char) (dot : Bool) (rest : List Char) (fuel : ℕ) (pk : tokenKind) (i : ℕ),
      LitOK ip fp dot → numBoundary rest →
      tokenizeGo (fuel + 1) (litChars ip fp dot ++ rest) pk true i
        = match tokenizeGo fuel rest .Number false (i + (litChars ip fp dot).length) with
          | .error e => .error e
          | .ok ts => .ok (⟨.Number, .fin (-(litQ ip fp))⟩ :: ts)) ∧
    Calculate "1+-2" = .ok (.fin (-1)) ∧
    (∃ v : ℚ, Calculate "1+-2.2" = .ok (.fin v) ∧ |v - (-(6/5))| ≤ 1 / 1000000000) := by
  refine ⟨fun fuel rest flag i => tokenizeGo_minus_binary fuel rest flag i,
    fun fuel rest pk flag i hpk => tokenizeGo_minus_unary fuel rest hpk flag i,
    fun ip fp dot rest fuel pk i hok hb => by simpa using tokenizeGo_lit hok hb fuel pk true i,
    by simp [Calculate, tokenize, tokenizeGo, readNumber, readNumberGo, digitQ, sentinelTok,
      readPlus, readMinus, readMultiple, readDivide, readStart, readEnd,
      evaluateStartEnd, evaluateStartEndGo, splitAtFirstEnd,
      evaluateMulDiv, evaluateMulDivGo, calcMultiple, calcDivide,
      evaluatePlusMinus, evaluatePlusMinusGo, EF.add, EF.sub, EF.mul, EF.div] <;> norm_num, ?_⟩
  refine ⟨-(6/5), by simp [Calculate, tokenize, tokenizeGo, readNumber, readNumberGo, digitQ, sentinelTok,
      readPlus, readMinus, readMultiple, readDivide, readStart, readEnd,
      evaluateStartEnd, evaluateStartEndGo, splitAtFirstEnd,
      evaluateMulDiv, evaluateMulDivGo, calcMultiple, calcDivide,
      evaluatePlusMinus, evaluatePlusMinusGo, EF.add, EF.sub, EF.mul, EF.div] <;> norm_num, by norm_num⟩

/-- C4 witness: concrete instances — a binary minus after `4`, a unary
minus after a `)` that negates the following `2`, and a flagged literal
parsed to its negated value. -/
theorem claim4_unary_minus_witness :
    tokenizeGo 2 ['-', '4'] .Number false 1 = .ok [⟨.Minus, .fin 0⟩, ⟨.Number, .fin 4⟩] ∧
    tokenizeGo 2 ['-', '4'] .End false 1 = .ok [⟨.Number, .fin (-4)⟩] ∧
    tokenizeGo 1 (litChars ['2'] [] false ++ []) .Plus true 0 = .ok [⟨.Number, .fin (-2)⟩] := by
  refine ⟨?_, ?_, ?_⟩
  · rw [claim4_unary_minus.1 1 ['4'] false 1]
    simp [tokenizeGo, readNumber, readNumberGo, digitQ, sentinelTok,
      readPlus, readMinus, readMultiple, readDivide, readStart, readEnd,
      evaluateStartEnd, evaluateStartEndGo, splitAtFirstEnd,
      evaluateMulDiv, evaluateMulDivGo, calcMultiple, calcDivide,
      evaluatePlusMinus, evaluatePlusMinusGo, EF.add, EF.sub, EF.mul, EF.div] <;> norm_num
  · rw [claim4_unary_minus.2.1 1 ['4'] .End false 1 (by decide)]
    simp [tokenizeGo, readNumber, readNumberGo, digitQ, sentinelTok,
      readPlus, readMinus, readMultiple, readDivide, readStart, readEnd,
      evaluateStartEnd, evaluateStartEndGo, splitAtFirstEnd,
      evaluateMulDiv, evaluateMulDivGo, calcMultiple, calcDivide,
      evaluatePlusMinus, evaluatePlusMinusGo, EF.add, EF.sub, EF.mul, EF.div] <;> norm_num
  · rw [claim4_unary_minus.2.2.1 ['2'] [] false [] 0 .Plus 0 (by decide) trivial]
    rw [tokenizeGo_nil]
    norm_num [litChars, litQ, digitsQ, digitsAcc, digitQ]
    decide

/-- C5: division by zero never raises an error: the Multiplicative
Reducer performs plain division with no zero-divisor guard, so
`Calculate "1/0"` returns `+∞` and `Calculate "0/0"` returns NaN, and
more generally `lit/0` completes normally with NaN (zero numerator) or
`+∞` (positive numerator) for every numeric literal `lit`. -/
theorem claim5_division_by_zero :
    Calculate "1/0" = .ok .pinf ∧
    Calculate "0/0" = .ok .nan ∧
    ∀ (ip fp : List Char) (dot : Bool) (s : String), LitOK ip fp dot →
      s.toList = litChars ip fp dot ++ '/' :: ['0'] →
      Calculate s = .ok (if litQ ip fp = 0 then .nan else .pinf) := by
  refine ⟨by simp [Calculate, tokenize, tokenizeGo, readNumber, readNumberGo, digitQ, sentinelTok,
      readPlus, readMinus, readMultiple, readDivide, readStart, readEnd,
      evaluateStartEnd, evaluateStartEndGo, splitAtFirstEnd,
      evaluateMulDiv, evaluateMulDivGo, calcMultiple, calcDivide,
      evaluatePlusMinus, evaluatePlusMinusGo, EF.add, EF.sub, EF.mul, EF.div] <;> norm_num, by simp [Calculate, tokenize, tokenizeGo, readNumber, readNumberGo, digitQ, sentinelTok,
      readPlus, readMinus, readMultiple, readDivide, readStart, readEnd,
      evaluateStartEnd, evaluateStartEndGo, splitAtFirstEnd,
      evaluateMulDiv, evaluateMulDivGo, calcMultiple, calcDivide,
      evaluatePlusMinus, evaluatePlusMinusGo, EF.add, EF.sub, EF.mul, EF.div] <;> norm_num, ?_⟩
  intro ip fp dot s hok hs
  have hB : LitOK ['0'] [] false := by decide
  have hs2 : s.toList = litChars ip fp dot ++ opChar .Divide :: litChars ['0'] [] false := by
    simpa [litChars, opChar] using hs
  have htok := tokenize_two_lit hok hB (show tokenKind.Divide.isBinOp = true from rfl) hs2
  have hb0 : litQ ['0'] [] = 0 := by norm_num [litQ, digitsQ, digitsAcc, digitQ]
  rw [hb0] at htok
  have hse := evaluateStartEnd_noStart
    (l := [⟨.Number, .fin (litQ ip fp)⟩, ⟨.Divide, .fin 0⟩, ⟨.Number, .fin 0⟩]) (by simp [countKind])
  by_cases hA0 : litQ ip fp = 0
  · rw [if_pos hA0]
    have h3 : evaluateMulDiv [sentinelTok, ⟨.Number, .fin (litQ ip fp)⟩, ⟨.Divide, .fin 0⟩,
        ⟨.Number, .fin 0⟩] = .ok [sentinelTok, ⟨.Number, .nan⟩] := by
      simp [evaluateMulDiv, evaluateMulDivGo, calcDivide, EF.div, sentinelTok, hA0]
    have h4 : evaluatePlusMinus [sentinelTok, ⟨.Number, .nan⟩] = .ok .nan := by
      simp [evaluatePlusMinus, evaluatePlusMinusGo, EF.add, sentinelTok]
    exact Calculate_eq htok hse h3 h4
  · rw [if_neg hA0]
    have hpos : 0 < litQ ip fp := lt_of_le_of_ne (litQ_nonneg _ _) (Ne.symm hA0)
    have h3 : evaluateMulDiv [sentinelTok, ⟨.Number, .fin (litQ ip fp)⟩, ⟨.Divide, .fin 0⟩,
        ⟨.Number, .fin 0⟩] = .ok [sentinelTok, ⟨.Number, .pinf⟩] := by
      simp [evaluateMulDiv, evaluateMulDivGo, calcDivide, EF.div, sentinelTok, hA0, hpos]
    have h4 : evaluatePlusMinus [sentinelTok, ⟨.Number, .pinf⟩] = .ok .pinf := by
      simp [evaluatePlusMinus, evaluatePlusMinusGo, EF.add, sentinelTok]
    exact Calculate_eq htok hse h3 h4

/-- C5 witness: `2.5/0` completes normally and returns `+∞`. -/
theorem claim5_division_by_zero_witness :
    LitOK ['2'] ['5'] true ∧
    Calculate "2.5/0" = .ok (if litQ ['2'] ['5'] = 0 then .nan else .pinf) := by
  refine ⟨by decide, ?_⟩
  exact claim5_division_by_zero.2.2 ['2'] ['5'] true "2.5/0" (by decide) (by decide)

/-- C6: any input containing a character outside `[0-9.+-*/()]` makes
evaluation terminate with a fatal `InvalidCharacter` error (carrying a
character and its index); no numeric value is returned. -/
theorem claim6_invalid_character (s : String)
    (h : ∃ c ∈ s.toList, validChar c = false) :
    ∃ c2 i2, Calculate s = .error (.invalidCharacter c2 i2) := by
  obtain ⟨c2, i2, herr⟩ :=
    tokenizeGo_invalid s.toList.length s.toList .Plus false 0 (Nat.le_refl _) h
  have htok : tokenize s = .error (.invalidCharacter c2 i2) := by
    simp only [tokenize, herr]
  exact ⟨c2, i2, Calculate_tokenize_err htok⟩

/-- C6 witness: `"1a"` contains the invalid character `a`, and
evaluation aborts with an `InvalidCharacter` error. -/
theorem claim6_invalid_character_witness :
    (∃ c ∈ "1a".toList, validChar c = false) ∧
    ∃ c2 i2, Calculate "1a" = .error (.invalidCharacter c2 i2) :=
  ⟨by decide, claim6_invalid_character "1a" (by decide)⟩

/-- In the exact-rational idealization of `float64` used by this
development, evaluating the concatenated string `a op b` for numeric
literals `a`, `b` and operator `op` (with `b ≠ 0` for division) returns
exactly the mathematical value of `a op b`.  This is a statement about
the idealized model only: real `float64` arithmetic rounds at every
step, and for large literals (e.g. `1e16 + 1`) the program's result can
differ from the mathematical value by far more than `1e-9`, so no
tolerance claim about the program follows from this lemma. -/
theorem calc_two_literal_exact
    (aip afp : List Char) (adot : Bool) (bip bfp : List Char) (bdot : Bool)
    (k : tokenKind) (s : String)
    (hA : LitOK aip afp adot) (hB : LitOK bip bfp bdot) (hk : k.isBinOp = true)
    (hdiv : k = .Divide → litQ bip bfp ≠ 0)
    (hs : s.toList = litChars aip afp adot ++ opChar k :: litChars bip bfp bdot) :
    ∃ v : ℚ, Calculate s = .ok (.fin v) ∧
      |v - binOpQ k (litQ aip afp) (litQ bip bfp)| ≤ 1 / 1000000000 := by
  have htok := tokenize_two_lit hA hB hk hs
  rcases isBinOp_cases hk with rfl | rfl | rfl | rfl
  · have hse := evaluateStartEnd_noStart
      (l := [⟨.Number, .fin (litQ aip afp)⟩, ⟨.Plus, .fin 0⟩, ⟨.Number, .fin (litQ bip bfp)⟩])
      (by simp [countKind])
    have h3 : evaluateMulDiv [sentinelTok, ⟨.Number, .fin (litQ aip afp)⟩, ⟨.Plus, .fin 0⟩,
        ⟨.Number, .fin (litQ bip bfp)⟩] = .ok [sentinelTok, ⟨.Number, .fin (litQ aip afp)⟩,
        ⟨.Plus, .fin 0⟩, ⟨.Number, .fin (litQ bip bfp)⟩] := by
      simp [evaluateMulDiv, evaluateMulDivGo, sentinelTok]
    have h4 : evaluatePlusMinus [sentinelTok, ⟨.Number, .fin (litQ aip afp)⟩, ⟨.Plus, .fin 0⟩,
        ⟨.Number, .fin (litQ bip bfp)⟩] = .ok (.fin (litQ aip afp + litQ bip bfp)) := by
      simp [evaluatePlusMinus, evaluatePlusMinusGo, EF.add, sentinelTok]
    refine ⟨litQ aip afp + litQ bip bfp, Calculate_eq htok hse h3 h4, ?_⟩
    simp [binOpQ]
  · have hse := evaluateStartEnd_noStart
      (l := [⟨.Number, .fin (litQ aip afp)⟩, ⟨.Minus, .fin 0⟩, ⟨.Number, .fin (litQ bip bfp)⟩])
      (by simp [countKind])
    have h3 : evaluateMulDiv [sentinelTok, ⟨.Number, .fin (litQ aip afp)⟩, ⟨.Minus, .fin 0⟩,
        ⟨.Number, .fin (litQ bip bfp)⟩] = .ok [sentinelTok, ⟨.Number, .fin (litQ aip afp)⟩,
        ⟨.Minus, .fin 0⟩, ⟨.Number, .fin (litQ bip bfp)⟩] := by
      simp [evaluateMulDiv, evaluateMulDivGo, sentinelTok]
    have h4 : evaluatePlusMinus [sentinelTok, ⟨.Number, .fin (litQ aip afp)⟩, ⟨.Minus, .fin 0⟩,
        ⟨.Number, .fin (litQ bip bfp)⟩] = .ok (.fin (litQ aip afp - litQ bip bfp)) := by
      simp [evaluatePlusMinus, evaluatePlusMinusGo, EF.add, EF.sub, sentinelTok]
    refine ⟨litQ aip afp - litQ bip bfp, Calculate_eq htok hse h3 h4, ?_⟩
    simp [binOpQ]
  · have hse := evaluateStartEnd_noStart
      (l := [⟨.Number, .fin (litQ aip afp)⟩, ⟨.Multiple, .fin 0⟩, ⟨.Number, .fin (litQ bip bfp)⟩])
      (by simp [countKind])
    have h3 : evaluateMulDiv [sentinelTok, ⟨.Number, .fin (litQ aip afp)⟩, ⟨.Multiple, .fin 0⟩,
        ⟨.Number, .fin (litQ bip bfp)⟩]
        = .ok [sentinelTok, ⟨.Number, .fin (litQ aip afp * litQ bip bfp)⟩] := by
      simp [evaluateMulDiv, evaluateMulDivGo, calcMultiple, EF.mul, sentinelTok]
    have h4 : evaluatePlusMinus [sentinelTok, ⟨.Number, .fin (litQ aip afp * litQ bip bfp)⟩]
        = .ok (.fin (litQ aip afp * litQ bip bfp)) := by
      simp [evaluatePlusMinus, evaluatePlusMinusGo, EF.add, sentinelTok]
    refine ⟨litQ aip afp * litQ bip bfp, Calculate_eq htok hse h3 h4, ?_⟩
    simp [binOpQ]
  · have hb0 : litQ bip bfp ≠ 0 := hdiv rfl
    have hse := evaluateStartEnd_noStart
      (l := [⟨.Number, .fin (litQ aip afp)⟩, ⟨.Divide, .fin 0⟩, ⟨.Number, .fin (litQ bip bfp)⟩])
      (by simp [countKind])
    have h3 : evaluateMulDiv [sentinelTok, ⟨.Number, .fin (litQ aip afp)⟩, ⟨.Divide, .fin 0⟩,
        ⟨.Number, .fin (litQ bip bfp)⟩]
        = .ok [sentinelTok, ⟨.Number, .fin (litQ aip afp / litQ bip bfp)⟩] := by
      simp [evaluateMulDiv, evaluateMulDivGo, calcDivide, EF.div, sentinelTok, hb0]
    have h4 : evaluatePlusMinus [sentinelTok, ⟨.Number, .fin (litQ aip afp / litQ bip bfp)⟩]
        = .ok (.fin (litQ aip afp / litQ bip bfp)) := by
      simp [evaluatePlusMinus, evaluatePlusMinusGo, EF.add, sentinelTok]
    refine ⟨litQ aip afp / litQ bip bfp, Calculate_eq htok hse h3 h4, ?_⟩
    simp [binOpQ]

/-- Concrete instance of the exact-arithmetic lemma: in the idealized
model, `12.5*3` evaluates to `37.5` exactly. -/
theorem calc_two_literal_exact_example :
    LitOK ['1', '2'] ['5'] true ∧ LitOK ['3'] [] false ∧
    ∃ v : ℚ, Calculate "12.5*3" = .ok (.fin v) ∧
      |v - binOpQ .Multiple (litQ ['1', '2'] ['5']) (litQ ['3'] [])| ≤ 1 / 1000000000 := by
  refine ⟨by decide, by decide, ?_⟩
  exact calc_two_literal_exact ['1', '2'] ['5'] true ['3'] [] false .Multiple "12.5*3"
    (by decide) (by decide) rfl (by intro h; cases h) (by decide)

/-- C9 counterexample: `readNumber` does not stop at the second decimal
point of `"1.2.3"` — it consumes the whole string (both dots) and yields
`1.23`, and `Calculate "1.2.3"` returns `1.23` instead of treating the
second `'.'` as the end of the literal. -/
theorem claim9_counterexample :
    readNumber ['1', '.', '2', '.', '3'] = (⟨.Number, .fin (123 / 100)⟩, []) ∧
    Calculate "1.2.3" = .ok (.fin (123 / 100)) := by
  constructor
  · simp [readNumber, readNumberGo, digitQ] <;> norm_num
  · simp [Calculate, tokenize, tokenizeGo, readNumber, readNumberGo, digitQ, sentinelTok,
      readPlus, readMinus, readMultiple, readDivide, readStart, readEnd,
      evaluateStartEnd, evaluateStartEndGo, splitAtFirstEnd,
      evaluateMulDiv, evaluateMulDivGo, calcMultiple, calcDivide,
      evaluatePlusMinus, evaluatePlusMinusGo, EF.add, EF.sub, EF.mul, EF.div] <;> norm_num

/-- C9 (amended): when lexing a literal that starts at a digit, the
tokenizer consumes contiguous digits and decimal points (any number of
dots is accepted — a dot only re-arms the fractional mode); for a
literal with at most one dot the integer digits accumulate by ×10 and
the fractional digits by a 0.1 place-value shrink, producing
`I + F/10^m`; the literal ends at the first character that is neither a
digit nor a dot. -/
theorem claim9_amended :
    (∀ (ip rest : List Char), ip ≠ [] → (∀ c ∈ ip, c.isDigit = true) → numBoundary rest →
      readNumber (ip ++ rest) = (⟨.Number, .fin (digitsQ ip)⟩, rest)) ∧
    (∀ (ip fp rest : List Char), ip ≠ [] → (∀ c ∈ ip, c.isDigit = true) →
      (∀ c ∈ fp, c.isDigit = true) → numBoundary rest →
      readNumber (ip ++ '.' :: (fp ++ rest))
        = (⟨.Number, .fin (digitsQ ip + digitsQ fp / 10 ^ fp.length)⟩, rest)) := by
  constructor
  · intro ip rest h1 h2 hb
    have h := @readNumber_lit ip [] false rest
      ⟨h1, h2, by simp, fun _ => rfl⟩ hb
    simpa [litChars, litQ, digitsQ, digitsAcc] using h
  · intro ip fp rest h1 h2 h3 hb
    have h := @readNumber_lit ip fp true rest
      ⟨h1, h2, h3, by simp⟩ hb
    simpa [litChars, litQ, digitsQ] using h

/-- C9 witness: `readNumber` on `"3.25+"` stops at `'+'` and returns
`3.25`; on `"40"` it returns `40`. -/
theorem claim9_amended_witness :
    readNumber ['4', '0'] = (⟨.Number, .fin (digitsQ ['4', '0'])⟩, []) ∧
    readNumber ['3', '.', '2', '5', '+']
      = (⟨.Number, .fin (digitsQ ['3'] + digitsQ ['2', '5'] / 10 ^ (['2', '5'] : List Char).length)⟩,
        ['+']) := by
  constructor
  · exact claim9_amended.1 ['4', '0'] [] (by decide) (by decide) trivial
  · exact claim9_amended.2 ['3'] ['2', '5'] ['+'] (by decide) (by decide) (by decide)
      (by decide)

/-- C10 counterexample: in `"(1+2)-+3"` the `'-'` immediately follows a
`')'`, yet evaluation does not abort with `InvalidSyntax` — the flagged
negation attaches to the `3` after the subsequent `'+'`, and the result
is `.ok 0`. -/
theorem claim10_counterexample :
    "(1+2)-+3".toList[4]? = some ')' ∧
    "(1+2)-+3".toList[5]? = some '-' ∧
    Calculate "(1+2)-+3" = .ok (.fin 0) := by
  refine ⟨by decide, by decide, ?_⟩
  simp [Calculate, tokenize, tokenizeGo, readNumber, readNumberGo, digitQ, sentinelTok,
      readPlus, readMinus, readMultiple, readDivide, readStart, readEnd,
      evaluateStartEnd, evaluateStartEndGo, splitAtFirstEnd,
      evaluateMulDiv, evaluateMulDivGo, calcMultiple, calcDivide,
      evaluatePlusMinus, evaluatePlusMinusGo, EF.add, EF.sub, EF.mul, EF.div] <;> norm_num

/-- C10 (amended): when the previously emitted token is a `GroupEnd`, a
`'-'` emits no token and sets the pending-negation flag; if a numeric
literal directly follows, it is appended negated with no operator after
the group, so `Calculate "(1+2)-3"` aborts with `InvalidSyntax` instead
of returning the subtraction's value `0`; if something other than a
literal follows the `'-'`, evaluation may instead complete normally. -/
theorem claim10_minus_after_rparen :
    (∀ (fuel : ℕ) (rest : List Char) (flag : Bool) (i : ℕ),
      tokenizeGo (fuel + 1) ('-' :: rest) .End flag i = tokenizeGo fuel rest .End true (i + 1)) ∧
    Calculate "(1+2)-3" = .error .invalidSyntax := by
  refine ⟨fun fuel rest flag i => tokenizeGo_minus_unary fuel rest (by decide) flag i, ?_⟩
  simp [Calculate, tokenize, tokenizeGo, readNumber, readNumberGo, digitQ, sentinelTok,
      readPlus, readMinus, readMultiple, readDivide, readStart, readEnd,
      evaluateStartEnd, evaluateStartEndGo, splitAtFirstEnd,
      evaluateMulDiv, evaluateMulDivGo, calcMultiple, calcDivide,
      evaluatePlusMinus, evaluatePlusMinusGo, EF.add, EF.sub, EF.mul, EF.div] <;> norm_num

end MoruxCalc
